import Mathlib

/-!
Verification of `gen_expr.py`: a random arithmetic-expression generator and
indented pretty printer.

Embedding conventions:
* Python's process-wide random source is modelled as a `Tape`: a stream of
  natural-number entropy cells consumed by `random.randint` / `random.choice`,
  and a stream of `PyFloat` values consumed by `random.random()`.  A `RState`
  records how many draws of each kind have happened.  Uniformity of the library
  draws is the `random` module's contract and is represented abstractly: an
  integer draw over `[lo, hi]` maps one fresh entropy cell into that range.
* `random.random()` results are modelled abstractly as `PyFloat`, carrying the
  default decimal rendering (`str(r)` in Python) that the code inspects.
* `random.randint(a, b)` raises `ValueError` when `b < a`; fallible operations
  therefore return `Option`.
* The `while True` reject/redraw loop in `rand_no_exp` is modelled with an
  explicit fuel parameter; the loop succeeds as soon as the stream yields a
  rendering without an `e` character.
* Each Python `print(...)` call is one `PrintCall` event (its text, and whether
  it ends the line, i.e. `end="\n"` versus `end=""`); `render` concatenates the
  events into the exact bytes written to standard output.
-/

namespace GenExpr

/-- Abstract model of a Python float produced by `random.random()`: we only
keep its default decimal rendering `str(r)`, which is all the code inspects. -/
structure PyFloat where
  str : String
deriving DecidableEq

/-- Dynamic Python values built by the generator and consumed by the printer:
an `int`, a `float`, or a list whose head is an operator string and whose tail
is the list of child expressions (`[op, child…]` in the Python source). -/
inductive PyVal where
  | vint : Int → PyVal
  | vfloat : PyFloat → PyVal
  | vlist : String → List PyVal → PyVal

/-- Entropy source standing for Python's process-wide `random` state:
`ints n` is the n-th raw entropy cell feeding `randint`/`choice`, and
`floats n` the n-th result of `random.random()`. -/
structure Tape where
  ints : Nat → Nat
  floats : Nat → PyFloat

/-- Position of the random source: how many integer draws and how many float
draws have been consumed so far. -/
structure RState where
  ipos : Nat
  fpos : Nat
deriving DecidableEq

/-- `random.randint(lo, hi)`: draws an integer in `[lo, hi]` from one entropy
cell; raises (`none`) when the range is empty (`hi < lo`), as the Python
library does. -/
def randint (t : Tape) (lo hi : Int) (s : RState) : Option (Int × RState) :=
  if hi < lo then none
  else some (lo + (t.ints s.ipos : Int) % (hi - lo + 1), ⟨s.ipos + 1, s.fpos⟩)

/-- `random.choice(xs)`: picks an element of `xs` indexed by one entropy cell;
raises (`none`) on an empty sequence, as the Python library does. -/
def choice (t : Tape) (xs : List String) (s : RState) : Option (String × RState) :=
  if xs.isEmpty then none
  else some (xs.getD (t.ints s.ipos % xs.length) "", ⟨s.ipos + 1, s.fpos⟩)

/-- `rand_no_exp()`: draw `random.random()` repeatedly until the rendering
contains no `e` character.  The unbounded `while True` loop is given explicit
fuel; it stops at the first acceptable draw. -/
def rand_no_exp (t : Tape) : Nat → RState → Option (PyFloat × RState)
  | 0, _ => none
  | fuel + 1, s =>
    let r := t.floats s.fpos
    let s1 : RState := ⟨s.ipos, s.fpos + 1⟩
    if r.str.data.contains 'e' then rand_no_exp t fuel s1 else some (r, s1)

/-- `rand_val()`: a fair `randint(0, 1)` coin; on nonzero, a uniform integer in
`[-1000, 1000]`; otherwise a float from the reject/redraw loop. -/
def rand_val (t : Tape) (fuel : Nat) (s : RState) : Option (PyVal × RState) :=
  (randint t 0 1 s).bind fun bs =>
    if bs.1 ≠ 0 then
      (randint t (-1000) 1000 bs.2).bind fun ns => some (.vint ns.1, ns.2)
    else
      (rand_no_exp t fuel bs.2).bind fun fs => some (.vfloat fs.1, fs.2)

/-- `rand_instr1(a)`: `[random.choice(["neg"]), a]`. -/
def rand_instr1 (t : Tape) (a : PyVal) (s : RState) : Option (PyVal × RState) :=
  (choice t ["neg"] s).bind fun os => some (.vlist os.1 [a], os.2)

/-- `rand_instr2(a, b)`: `[random.choice(["add", "sub", "mult"]), a, b]`. -/
def rand_instr2 (t : Tape) (a b : PyVal) (s : RState) : Option (PyVal × RState) :=
  (choice t ["add", "sub", "mult"] s).bind fun os => some (.vlist os.1 [a, b], os.2)

/-- `rand_expr(max_rec)`: draw `r = randint(0, max_rec)`; on `r == 0` or
`max_rec <= 0` return `rand_val()`; on `r <= 1` a unary node over
`rand_expr(max_rec - 1)`; otherwise a binary node over two sequential child
generations.  Python evaluates the argument(s) of `rand_instr1`/`rand_instr2`
before the `choice` call inside them, so the operator draw comes last. -/
def rand_expr (t : Tape) (fuel : Nat) (max_rec : Int) (s : RState) :
    Option (PyVal × RState) :=
  (randint t 0 max_rec s).bind fun rs =>
    if h : rs.1 = 0 ∨ max_rec ≤ 0 then rand_val t fuel rs.2
    else if rs.1 ≤ 1 then
      (rand_expr t fuel (max_rec - 1) rs.2).bind fun cs => rand_instr1 t cs.1 cs.2
    else
      (rand_expr t fuel (max_rec - 1) rs.2).bind fun as1 =>
        (rand_expr t fuel (max_rec - 1) as1.2).bind fun bs =>
          rand_instr2 t as1.1 bs.1 bs.2
termination_by max_rec.toNat
decreasing_by
  all_goals
    simp only [not_or, not_le] at h
    omega

/-- One Python `print(...)` call: the interpolated text and whether the call
ends the line (`end="\n"`, the default) or not (`end=""`). -/
structure PrintCall where
  text : String
  endsLine : Bool
deriving DecidableEq

/-- The `spacing` local of `print_expr`: `indent` spaces in newline mode, a
single space otherwise. -/
def spacing (indent : Nat) (newline : Bool) : String :=
  if newline then String.mk (List.replicate indent ' ') else " "

/-- `print_expr(expr, indent, newline)`: the list of `print` calls it makes.
Numbers print as one full line; a Python list of length 2 (one child) prints
its operator without a newline and its child inline; any other list prints its
operator as a line and each remaining element indented on its own line. -/
def print_expr (expr : PyVal) (indent : Nat) (newline : Bool) : List PrintCall :=
  let sp := spacing indent newline
  match expr with
  | .vint n => [⟨sp ++ toString n, true⟩]
  | .vfloat f => [⟨sp ++ f.str, true⟩]
  | .vlist op kids =>
    match kids with
    | [c] => ⟨sp ++ op, false⟩ :: print_expr c (indent + 1) false
    | other =>
      ⟨sp ++ op, true⟩ ::
        (other.attach.map fun c => print_expr c.1 (indent + 1) true).flatten
termination_by sizeOf expr
decreasing_by
  all_goals simp_wf
  · omega
  · have hm := List.sizeOf_lt_of_mem c.2
    omega

/-- Exact bytes written to standard output by a sequence of `print` calls:
each call writes its text, then a newline when `end` is the default. -/
def render : List PrintCall → String
  | [] => ""
  | c :: rest => c.text ++ (if c.endsLine then "\n" else "") ++ render rest

/-- The module top level: `print("print")` then
`print_expr(rand_expr(max_rec))`, i.e. indent 0 and newline mode true. -/
def program_output (t : Tape) (fuel : Nat) (max_rec : Int) :
    Option (List PrintCall) :=
  (rand_expr t fuel max_rec ⟨0, 0⟩).bind fun es =>
    some (⟨"print", true⟩ :: print_expr es.1 0 true)

/-- A leaf in the spec's sense: a bare number. -/
def isLeaf : PyVal → Bool
  | .vint _ => true
  | .vfloat _ => true
  | .vlist _ _ => false

/-- The shape invariant of generated trees: every node is a number, a
`["neg", child]` unary node, or an `[op, left, right]` binary node with
`op ∈ {"add", "sub", "mult"}`. -/
def isGenShape : PyVal → Bool
  | .vint _ => true
  | .vfloat _ => true
  | .vlist op kids =>
    ((op == "neg" && kids.length == 1) ||
      ((op == "add" || op == "sub" || op == "mult") && kids.length == 2)) &&
      (kids.attach.all fun c => isGenShape c.1)
termination_by v => sizeOf v
decreasing_by
  have hm := List.sizeOf_lt_of_mem c.2
  simp at hm ⊢
  omega

/-- Depth of a tree: leaves have depth 0, an operator node is one more than
the deepest child. -/
def depth : PyVal → Nat
  | .vint _ => 0
  | .vfloat _ => 0
  | .vlist _ kids => 1 + (kids.attach.map fun c => depth c.1).foldr Nat.max 0
termination_by v => sizeOf v
decreasing_by
  have hm := List.sizeOf_lt_of_mem c.2
  simp at hm ⊢
  omega

/-- Number of leaf nodes. -/
def leafCount : PyVal → Nat
  | .vint _ => 1
  | .vfloat _ => 1
  | .vlist _ kids => ((kids.attach.map fun c => leafCount c.1).foldr Nat.add 0)
termination_by v => sizeOf v
decreasing_by
  have hm := List.sizeOf_lt_of_mem c.2
  simp at hm ⊢
  omega

/-- Number of binary nodes (two children, i.e. Python list length 3). -/
def binCount : PyVal → Nat
  | .vint _ => 0
  | .vfloat _ => 0
  | .vlist _ kids =>
    (if kids.length = 2 then 1 else 0) +
      ((kids.attach.map fun c => binCount c.1).foldr Nat.add 0)
termination_by v => sizeOf v
decreasing_by
  have hm := List.sizeOf_lt_of_mem c.2
  simp at hm ⊢
  omega

/-- Number of lines started by a sequence of print calls: the calls that end
their line.  Every printed text is a one-line token (a number rendering or an
operator name), so line-ending calls and output lines correspond one to one. -/
def lineCount (calls : List PrintCall) : Nat :=
  calls.countP fun c => c.endsLine

/-- A tape is float-good for `fuel` when, from every position of the float
stream, a rendering without an `e` character shows up within `fuel` draws.
Python's `random.random()` has this property with probability one; it is the
hypothesis under which the reject/redraw loop terminates. -/
def FloatGood (t : Tape) (fuel : Nat) : Prop :=
  ∀ n, ∃ k, k < fuel ∧ (t.floats (n + k)).str.data.contains 'e' = false

/-- The value of `random.randint(0, m)` in terms of the fresh entropy cell. -/
def drawInt (t : Tape) (s : RState) (m : Int) : Int :=
  (t.ints s.ipos : Int) % (m + 1)

/-- A concrete entropy tape: every integer entropy cell is `0` and every
`random.random()` draw renders as `"0.5"`. -/
def tape0 : Tape :=
  ⟨fun _ => 0, fun _ => ⟨"0.5"⟩⟩

/-! Helper lemmas: attach-free unfolding equations and an induction principle
for the nested inductive `PyVal`. -/

theorem depth_vlist (op : String) (kids : List PyVal) :
    depth (.vlist op kids) = 1 + (kids.map depth).foldr Nat.max 0 := by
  rw [depth, List.attach_map_val]

theorem leafCount_vlist (op : String) (kids : List PyVal) :
    leafCount (.vlist op kids) = (kids.map leafCount).foldr Nat.add 0 := by
  rw [leafCount, List.attach_map_val]

theorem binCount_vlist (op : String) (kids : List PyVal) :
    binCount (.vlist op kids) =
      (if kids.length = 2 then 1 else 0) +
        (kids.map binCount).foldr Nat.add 0 := by
  rw [binCount, List.attach_map_val]

theorem isGenShape_vlist (op : String) (kids : List PyVal) :
    isGenShape (.vlist op kids) = true ↔
      (((op = "neg" ∧ kids.length = 1) ∨
        ((op = "add" ∨ op = "sub" ∨ op = "mult") ∧ kids.length = 2)) ∧
        ∀ c ∈ kids, isGenShape c = true) := by
  rw [isGenShape]
  simp [List.all_eq_true]
  tauto

theorem print_expr_vint (n : Int) (indent : Nat) (newline : Bool) :
    print_expr (.vint n) indent newline =
      [⟨spacing indent newline ++ toString n, true⟩] := by
  rw [print_expr]

theorem print_expr_vfloat (f : PyFloat) (indent : Nat) (newline : Bool) :
    print_expr (.vfloat f) indent newline =
      [⟨spacing indent newline ++ f.str, true⟩] := by
  rw [print_expr]

theorem print_expr_unary (op : String) (c : PyVal) (indent : Nat)
    (newline : Bool) :
    print_expr (.vlist op [c]) indent newline =
      ⟨spacing indent newline ++ op, false⟩ :: print_expr c (indent + 1) false := by
  rw [print_expr]

theorem print_expr_other (op : String) (kids : List PyVal) (indent : Nat)
    (newline : Bool) (hk : ∀ c, kids ≠ [c]) :
    print_expr (.vlist op kids) indent newline =
      ⟨spacing indent newline ++ op, true⟩ ::
        (kids.map fun c => print_expr c (indent + 1) true).flatten := by
  rcases kids with _ | ⟨a, _ | ⟨b, rest⟩⟩
  · rw [print_expr]
    · rfl
    · intro c h
      simp at h
  · exact absurd rfl (hk a)
  · rw [print_expr, List.attach_map_val _ fun c => print_expr c (indent + 1) true]
    intro c h
    simp at h

theorem randint_eq_of_le (t : Tape) (lo hi : Int) (s : RState) (h : lo ≤ hi) :
    randint t lo hi s =
      some (lo + (t.ints s.ipos : Int) % (hi - lo + 1), ⟨s.ipos + 1, s.fpos⟩) := by
  rw [randint, if_neg (not_lt.mpr h)]

theorem randint_bounds (t : Tape) (lo hi r : Int) (s s' : RState)
    (hr : randint t lo hi s = some (r, s')) : lo ≤ r ∧ r ≤ hi := by
  unfold randint at hr
  split at hr
  · cases hr
  · rename_i hlt
    simp only [Option.some.injEq, Prod.mk.injEq] at hr
    obtain ⟨h1, -⟩ := hr
    have hpos : 0 < hi - lo + 1 := by omega
    have hm1 : 0 ≤ (t.ints s.ipos : Int) % (hi - lo + 1) :=
      Int.emod_nonneg _ (by omega)
    have hm2 : (t.ints s.ipos : Int) % (hi - lo + 1) < hi - lo + 1 :=
      Int.emod_lt_of_pos _ hpos
    omega

theorem rand_no_exp_no_e (t : Tape) :
    ∀ (fuel : Nat) (s s' : RState) (f : PyFloat),
      rand_no_exp t fuel s = some (f, s') → f.str.data.contains 'e' = false := by
  intro fuel
  induction fuel with
  | zero => intro s s' f hf; cases hf
  | succ n ih =>
    intro s s' f hf
    rw [rand_no_exp] at hf
    split at hf
    · exact ih _ _ _ hf
    · rename_i hcond
      simp only [Option.some.injEq, Prod.mk.injEq] at hf
      rw [← hf.1]
      exact Bool.not_eq_true _ ▸ hcond

theorem rand_no_exp_succeeds (t : Tape) :
    ∀ (fuel : Nat) (s : RState),
      (∃ k, k < fuel ∧ (t.floats (s.fpos + k)).str.data.contains 'e' = false) →
      ∃ f fp, rand_no_exp t fuel s = some (f, ⟨s.ipos, fp⟩) := by
  intro fuel
  induction fuel with
  | zero =>
    rintro s ⟨k, hk, -⟩
    omega
  | succ n ih =>
    rintro s ⟨k, hk, hgood⟩
    rw [rand_no_exp]
    by_cases hc : (t.floats s.fpos).str.data.contains 'e' = true
    · rw [if_pos hc]
      apply ih ⟨s.ipos, s.fpos + 1⟩
      have hk0 : k ≠ 0 := by
        rintro rfl
        rw [Nat.add_zero] at hgood
        rw [hgood] at hc
        cases hc
      refine ⟨k - 1, by omega, ?_⟩
      have harith : s.fpos + 1 + (k - 1) = s.fpos + k := by omega
      rw [harith]
      exact hgood
    · rw [if_neg hc]
      exact ⟨_, _, rfl⟩

theorem rand_val_policy (t : Tape) (fuel : Nat) (s s' : RState) (v : PyVal)
    (hv : rand_val t fuel s = some (v, s')) :
    (∃ n : Int, v = .vint n ∧ -1000 ≤ n ∧ n ≤ 1000) ∨
    (∃ f : PyFloat, v = .vfloat f ∧ f.str.data.contains 'e' = false) := by
  unfold rand_val at hv
  simp only [randint_eq_of_le t 0 1 s (by norm_num), Option.some_bind] at hv
  split at hv
  · rcases hi : randint t (-1000) 1000 ⟨s.ipos + 1, s.fpos⟩ with - | ns
    · rw [hi, Option.none_bind] at hv
      cases hv
    · rw [hi, Option.some_bind] at hv
      simp only [Option.some.injEq, Prod.mk.injEq] at hv
      left
      have hb := randint_bounds t (-1000) 1000 ns.1 _ ns.2 (by rw [hi])
      exact ⟨ns.1, hv.1.symm, by omega, by omega⟩
  · rcases hf : rand_no_exp t fuel ⟨s.ipos + 1, s.fpos⟩ with - | fs
    · rw [hf, Option.none_bind] at hv
      cases hv
    · rw [hf, Option.some_bind] at hv
      simp only [Option.some.injEq, Prod.mk.injEq] at hv
      right
      exact ⟨fs.1, hv.1.symm, rand_no_exp_no_e t fuel _ fs.2 fs.1 (by rw [hf])⟩

theorem rand_val_isLeaf (t : Tape) (fuel : Nat) (s s' : RState) (v : PyVal)
    (hv : rand_val t fuel s = some (v, s')) : isLeaf v = true := by
  rcases rand_val_policy t fuel s s' v hv with ⟨n, rfl, -, -⟩ | ⟨f, rfl, -⟩ <;> rfl

theorem rand_val_succeeds (t : Tape) (fuel : Nat) (s : RState)
    (hgood : FloatGood t fuel) :
    ∃ v s', rand_val t fuel s = some (v, s') := by
  unfold rand_val
  simp only [randint_eq_of_le t 0 1 s (by norm_num), Option.some_bind]
  by_cases hb : (0 : Int) + (t.ints s.ipos : Int) % (1 - 0 + 1) = 0
  · rw [if_neg (not_not_intro hb)]
    obtain ⟨f, fp, hf⟩ := rand_no_exp_succeeds t fuel ⟨s.ipos + 1, s.fpos⟩ (hgood s.fpos)
    rw [hf, Option.some_bind]
    exact ⟨_, _, rfl⟩
  · rw [if_pos hb]
    simp only [randint_eq_of_le t (-1000) 1000 _ (by norm_num), Option.some_bind]
    exact ⟨_, _, rfl⟩

theorem rand_instr1_eq (t : Tape) (a : PyVal) (s : RState) :
    rand_instr1 t a s = some (.vlist "neg" [a], ⟨s.ipos + 1, s.fpos⟩) := by
  simp [rand_instr1, choice, Nat.mod_one]

theorem rand_instr2_eq (t : Tape) (a b : PyVal) (s : RState) :
    ∃ op, rand_instr2 t a b s = some (.vlist op [a, b], ⟨s.ipos + 1, s.fpos⟩) ∧
      (op = "add" ∨ op = "sub" ∨ op = "mult") := by
  refine ⟨["add", "sub", "mult"].getD (t.ints s.ipos % 3) "", ?_, ?_⟩
  · simp [rand_instr2, choice]
  · have h3 : t.ints s.ipos % 3 < 3 := Nat.mod_lt _ (by norm_num)
    rcases Nat.lt_succ_iff_lt_or_eq.mp h3 with h2 | h2
    · rcases Nat.lt_succ_iff_lt_or_eq.mp h2 with h1 | h1
      · rcases Nat.lt_one_iff.mp h1 with h0
        rw [h0]
        left
        rfl
      · rw [h1]
        right
        left
        rfl
    · rw [h2]
      right
      right
      rfl

theorem PyVal.inductionOn (P : PyVal → Prop) (hint : ∀ n, P (.vint n))
    (hfloat : ∀ f, P (.vfloat f))
    (hlist : ∀ op kids, (∀ c ∈ kids, P c) → P (.vlist op kids)) (v : PyVal) :
    P v := by
  have H : ∀ (n : Nat) (w : PyVal), sizeOf w ≤ n → P w := by
    intro n
    induction n with
    | zero =>
      intro w hw
      cases w <;> simp at hw
    | succ n ih =>
      intro w hw
      cases w with
      | vint k => exact hint k
      | vfloat f => exact hfloat f
      | vlist op kids =>
        apply hlist
        intro c hc
        apply ih
        have hs := List.sizeOf_lt_of_mem hc
        simp at hw
        omega
  exact H (sizeOf v) v le_rfl

theorem randint_draw (t : Tape) (m : Int) (s : RState) (hm : 0 ≤ m) :
    randint t 0 m s = some (drawInt t s m, ⟨s.ipos + 1, s.fpos⟩) := by
  rw [randint_eq_of_le t 0 m s hm, drawInt]
  norm_num

theorem drawInt_bounds (t : Tape) (s : RState) (m : Int) (hm : 0 ≤ m) :
    0 ≤ drawInt t s m ∧ drawInt t s m ≤ m := by
  have h1 := Int.emod_nonneg (t.ints s.ipos : Int) (show m + 1 ≠ 0 by omega)
  have h2 := Int.emod_lt_of_pos (t.ints s.ipos : Int) (show 0 < m + 1 by omega)
  unfold drawInt
  omega

theorem rand_expr_none_of_neg (t : Tape) (fuel : Nat) (m : Int) (s : RState)
    (hm : m < 0) : rand_expr t fuel m s = none := by
  rw [rand_expr, randint, if_pos (show m < 0 from hm), Option.none_bind]

theorem rand_expr_zero (t : Tape) (fuel : Nat) (s : RState) :
    rand_expr t fuel 0 s = rand_val t fuel ⟨s.ipos + 1, s.fpos⟩ := by
  rw [rand_expr]
  simp only [randint_draw t 0 s le_rfl, Option.some_bind]
  rw [dif_pos (Or.inr le_rfl)]

theorem rand_expr_cases (t : Tape) (fuel : Nat) (m : Int) (s : RState)
    (v : PyVal) (s' : RState) (hm : 0 ≤ m)
    (hv : rand_expr t fuel m s = some (v, s')) :
    ((drawInt t s m = 0 ∨ m ≤ 0) ∧
      rand_val t fuel ⟨s.ipos + 1, s.fpos⟩ = some (v, s')) ∨
    (¬(drawInt t s m = 0 ∨ m ≤ 0) ∧ drawInt t s m ≤ 1 ∧
      ∃ c s2, rand_expr t fuel (m - 1) ⟨s.ipos + 1, s.fpos⟩ = some (c, s2) ∧
        v = .vlist "neg" [c] ∧ s' = ⟨s2.ipos + 1, s2.fpos⟩) ∨
    (¬(drawInt t s m = 0 ∨ m ≤ 0) ∧ 1 < drawInt t s m ∧
      ∃ op a s2 b s3, (op = "add" ∨ op = "sub" ∨ op = "mult") ∧
        rand_expr t fuel (m - 1) ⟨s.ipos + 1, s.fpos⟩ = some (a, s2) ∧
        rand_expr t fuel (m - 1) s2 = some (b, s3) ∧
        v = .vlist op [a, b] ∧ s' = ⟨s3.ipos + 1, s3.fpos⟩) := by
  rw [rand_expr] at hv
  simp only [randint_draw t m s hm, Option.some_bind] at hv
  split at hv
  · rename_i h
    exact Or.inl ⟨h, hv⟩
  · rename_i h
    split at hv
    · rename_i hle
      rcases hc : rand_expr t fuel (m - 1) ⟨s.ipos + 1, s.fpos⟩ with - | ⟨c, s2⟩
      · rw [hc, Option.none_bind] at hv
        cases hv
      · rw [hc, Option.some_bind] at hv
        rw [show ((c, s2).1, (c, s2).2) = (c, s2) from rfl] at hv
        rw [rand_instr1_eq] at hv
        simp only [Option.some.injEq, Prod.mk.injEq] at hv
        exact Or.inr (Or.inl
          ⟨h, hle, c, s2, rfl, hv.1.symm, hv.2.symm⟩)
    · rename_i hgt
      rcases ha : rand_expr t fuel (m - 1) ⟨s.ipos + 1, s.fpos⟩ with - | ⟨a, s2⟩
      · rw [ha, Option.none_bind] at hv
        cases hv
      · rw [ha, Option.some_bind] at hv
        rcases hb2 : rand_expr t fuel (m - 1) (a, s2).2 with - | ⟨b, s3⟩
        · rw [hb2, Option.none_bind] at hv
          cases hv
        · rw [hb2, Option.some_bind] at hv
          obtain ⟨op, heq, hop⟩ := rand_instr2_eq t (a, s2).1 (b, s3).1 (b, s3).2
          rw [heq] at hv
          simp only [Option.some.injEq, Prod.mk.injEq] at hv
          exact Or.inr (Or.inr ⟨h, by omega, op, a, s2, b, s3,
            hop, rfl, hb2, hv.1.symm, hv.2.symm⟩)

theorem rand_expr_total (t : Tape) (fuel : Nat) (hgood : FloatGood t fuel) :
    ∀ (n : Nat) (m : Int), m.toNat ≤ n → 0 ≤ m → ∀ s : RState,
      ∃ v s', rand_expr t fuel m s = some (v, s') ∧ depth v ≤ m.toNat := by
  intro n
  induction n with
  | zero =>
    intro m hmn hm s
    have hm0 : m = 0 := by omega
    subst hm0
    rw [rand_expr_zero]
    obtain ⟨v, s', hv⟩ := rand_val_succeeds t fuel _ hgood
    refine ⟨v, s', hv, ?_⟩
    rcases rand_val_policy t fuel _ _ _ hv with ⟨k, rfl, -, -⟩ | ⟨f, rfl, -⟩ <;>
      simp [depth]
  | succ n ih =>
    intro m hmn hm s
    rw [rand_expr]
    simp only [randint_draw t m s hm, Option.some_bind]
    by_cases h0 : drawInt t s m = 0 ∨ m ≤ 0
    · rw [dif_pos h0]
      obtain ⟨v, s', hv⟩ := rand_val_succeeds t fuel _ hgood
      refine ⟨v, s', hv, ?_⟩
      rcases rand_val_policy t fuel _ _ _ hv with ⟨k, rfl, -, -⟩ | ⟨f, rfl, -⟩ <;>
        simp [depth]
    · rw [dif_neg h0]
      push_neg at h0
      have hrec : (m - 1).toNat ≤ n := by omega
      by_cases h1 : drawInt t s m ≤ 1
      · rw [if_pos h1]
        obtain ⟨c, s2, hc, hdc⟩ := ih (m - 1) hrec (by omega) ⟨s.ipos + 1, s.fpos⟩
        simp only [hc, Option.some_bind, rand_instr1_eq]
        refine ⟨_, _, rfl, ?_⟩
        rw [depth_vlist]
        simp only [List.map_cons, List.map_nil, List.foldr_cons, List.foldr_nil,
          Nat.max_zero]
        omega
      · rw [if_neg h1]
        obtain ⟨a, s2, ha, hda⟩ := ih (m - 1) hrec (by omega) ⟨s.ipos + 1, s.fpos⟩
        obtain ⟨b, s3, hb2, hdb⟩ := ih (m - 1) hrec (by omega) s2
        obtain ⟨op, heq, hop⟩ := rand_instr2_eq t a b s3
        simp only [ha, Option.some_bind, hb2, heq]
        refine ⟨_, _, rfl, ?_⟩
        rw [depth_vlist]
        simp only [List.map_cons, List.map_nil, List.foldr_cons, List.foldr_nil,
          Nat.max_zero]
        have hmax : (depth a).max (depth b) ≤ (m - 1).toNat :=
          Nat.max_le.mpr ⟨hda, hdb⟩
        omega

theorem rand_expr_shape (t : Tape) (fuel : Nat) :
    ∀ (n : Nat) (m : Int), m.toNat ≤ n → ∀ (s s' : RState) (v : PyVal),
      rand_expr t fuel m s = some (v, s') → isGenShape v = true := by
  intro n
  induction n with
  | zero =>
    intro m hmn s s' v hv
    by_cases hm : 0 ≤ m
    · have hm0 : m = 0 := by omega
      subst hm0
      rw [rand_expr_zero] at hv
      rcases rand_val_policy t fuel _ _ _ hv with ⟨k, rfl, -, -⟩ | ⟨f, rfl, -⟩ <;>
        simp [isGenShape]
    · rw [rand_expr_none_of_neg t fuel m s (by omega)] at hv
      cases hv
  | succ n ih =>
    intro m hmn s s' v hv
    by_cases hm : 0 ≤ m
    · rcases rand_expr_cases t fuel m s v s' hm hv with
        ⟨-, hval⟩ |
        ⟨h0, -, c, s2, hc, rfl, -⟩ |
        ⟨h0, -, op, a, s2, b, s3, hop, ha, hb2, rfl, -⟩
      · rcases rand_val_policy t fuel _ _ _ hval with
          ⟨k, rfl, -, -⟩ | ⟨f, rfl, -⟩ <;> simp [isGenShape]
      · push_neg at h0
        have hcs : isGenShape c = true :=
          ih (m - 1) (by omega) _ _ _ hc
        rw [isGenShape_vlist]
        refine ⟨Or.inl ⟨rfl, rfl⟩, ?_⟩
        intro x hx
        rw [List.mem_singleton.mp hx]
        exact hcs
      · push_neg at h0
        have has : isGenShape a = true := ih (m - 1) (by omega) _ _ _ ha
        have hbs : isGenShape b = true := ih (m - 1) (by omega) _ _ _ hb2
        rw [isGenShape_vlist]
        refine ⟨Or.inr ⟨hop, rfl⟩, ?_⟩
        intro x hx
        rcases List.mem_pair.mp hx with rfl | rfl
        · exact has
        · exact hbs
    · rw [rand_expr_none_of_neg t fuel m s (by omega)] at hv
      cases hv

theorem rand_val_coin (t : Tape) (fuel : Nat) (s s' : RState) (v : PyVal)
    (hv : rand_val t fuel s = some (v, s')) :
    (drawInt t s 1 ≠ 0 →
      ∃ n : Int, v = .vint n ∧ -1000 ≤ n ∧ n ≤ 1000) ∧
    (drawInt t s 1 = 0 →
      ∃ f : PyFloat, v = .vfloat f ∧ f.str.data.contains 'e' = false) := by
  unfold rand_val at hv
  simp only [randint_draw t 1 s (by norm_num), Option.some_bind] at hv
  split at hv
  · rename_i hcoin
    rcases hi : randint t (-1000) 1000 ⟨s.ipos + 1, s.fpos⟩ with - | ⟨n, s2⟩
    · rw [hi, Option.none_bind] at hv
      cases hv
    · rw [hi, Option.some_bind] at hv
      simp only [Option.some.injEq, Prod.mk.injEq] at hv
      have hb := randint_bounds t (-1000) 1000 n _ _ hi
      refine ⟨fun _ => ⟨n, hv.1.symm, by omega, by omega⟩, fun h0 => absurd h0 hcoin⟩
  · rename_i hcoin
    rw [not_not] at hcoin
    rcases hf : rand_no_exp t fuel ⟨s.ipos + 1, s.fpos⟩ with - | ⟨f, s2⟩
    · rw [hf, Option.none_bind] at hv
      cases hv
    · rw [hf, Option.some_bind] at hv
      simp only [Option.some.injEq, Prod.mk.injEq] at hv
      exact ⟨fun h0 => absurd hcoin h0,
        fun _ => ⟨f, hv.1.symm, rand_no_exp_no_e t fuel _ _ f hf⟩⟩

theorem shape_trichotomy (v : PyVal) (h : isGenShape v = true) :
    (∃ n : Int, v = .vint n) ∨ (∃ f : PyFloat, v = .vfloat f) ∨
    (∃ c, v = .vlist "neg" [c] ∧ isGenShape c = true) ∨
    (∃ op a b, (op = "add" ∨ op = "sub" ∨ op = "mult") ∧
      v = .vlist op [a, b] ∧ isGenShape a = true ∧ isGenShape b = true) := by
  cases v with
  | vint n => exact Or.inl ⟨n, rfl⟩
  | vfloat f => exact Or.inr (Or.inl ⟨f, rfl⟩)
  | vlist op kids =>
    rw [isGenShape_vlist] at h
    obtain ⟨hshape, hall⟩ := h
    rcases hshape with ⟨rfl, hlen⟩ | ⟨hop, hlen⟩
    · obtain ⟨c, rfl⟩ := List.length_eq_one.mp hlen
      exact Or.inr (Or.inr (Or.inl ⟨c, rfl, hall c (by simp)⟩))
    · obtain ⟨a, b, rfl⟩ := List.length_eq_two.mp hlen
      exact Or.inr (Or.inr (Or.inr
        ⟨op, a, b, hop, rfl, hall a (by simp), hall b (by simp)⟩))

theorem lineCount_nil : lineCount [] = 0 := rfl

theorem lineCount_cons (c : PrintCall) (rest : List PrintCall) :
    lineCount (c :: rest) =
      lineCount rest + if c.endsLine then 1 else 0 := by
  simp [lineCount, List.countP_cons]

theorem lineCount_append (l1 l2 : List PrintCall) :
    lineCount (l1 ++ l2) = lineCount l1 + lineCount l2 := by
  simp [lineCount, List.countP_append]

theorem lineCount_print_expr (v : PyVal) :
    ∀ (indent : Nat) (newline : Bool), isGenShape v = true →
      lineCount (print_expr v indent newline) = leafCount v + binCount v := by
  induction v using PyVal.inductionOn with
  | hint n =>
    intro indent newline _
    simp [print_expr_vint, lineCount, List.countP_cons, leafCount, binCount]
  | hfloat f =>
    intro indent newline _
    simp [print_expr_vfloat, lineCount, List.countP_cons, leafCount, binCount]
  | hlist op kids ih =>
    intro indent newline hsh
    rw [isGenShape_vlist] at hsh
    obtain ⟨hshape, hall⟩ := hsh
    rcases hshape with ⟨-, hlen⟩ | ⟨-, hlen⟩
    · obtain ⟨c, rfl⟩ := List.length_eq_one.mp hlen
      rw [print_expr_unary, lineCount_cons, leafCount_vlist, binCount_vlist]
      have hc := ih c (by simp) (indent + 1) false (hall c (by simp))
      simp only [List.map_cons, List.map_nil, List.foldr_cons, List.foldr_nil,
        List.length_singleton]
      rw [hc]
      norm_num
    · obtain ⟨a, b, rfl⟩ := List.length_eq_two.mp hlen
      rw [print_expr_other op [a, b] indent newline (by intro c h; simp at h),
        lineCount_cons, leafCount_vlist, binCount_vlist]
      have hca := ih a (by simp) (indent + 1) true (hall a (by simp))
      have hcb := ih b (by simp) (indent + 1) true (hall b (by simp))
      simp only [List.map_cons, List.map_nil, List.flatten_cons, List.flatten_nil,
        List.append_nil, List.foldr_cons, List.foldr_nil]
      rw [lineCount_append, hca, hcb]
      norm_num
      omega

theorem tape0_FloatGood : FloatGood tape0 1 :=
  fun _ => ⟨0, Nat.zero_lt_one, rfl⟩

/-! Claim theorems. -/

/-- Claim C1: for every nonnegative `max_depth`, the generator first draws a
random integer `r` in `[0, max_depth]` (one fresh entropy cell mapped into the
range; uniformity is the `random.randint` library contract); it returns a leaf
exactly when `r = 0` or `max_depth ≤ 0`; when `r = 1` (the only other value
with `r ≤ 1`) it returns a unary `"neg"` node whose child is generated by
`rand_expr (max_depth - 1)`; otherwise it returns a binary node whose operator
is drawn from `{"add", "sub", "mult"}` and whose two children come from two
sequential recursive calls at `max_depth - 1`. -/
theorem claim_C1 (t : Tape) (fuel : Nat) (m : Int) (s s' : RState) (v : PyVal)
    (hm : 0 ≤ m) (hv : rand_expr t fuel m s = some (v, s')) :
    (0 ≤ drawInt t s m ∧ drawInt t s m ≤ m) ∧
    (isLeaf v = true ↔ (drawInt t s m = 0 ∨ m ≤ 0)) ∧
    ((drawInt t s m = 1 ∧ 0 < m) →
      ∃ c s2, rand_expr t fuel (m - 1) ⟨s.ipos + 1, s.fpos⟩ = some (c, s2) ∧
        v = .vlist "neg" [c]) ∧
    ((2 ≤ drawInt t s m ∧ 0 < m) →
      ∃ op a s2 b s3, (op = "add" ∨ op = "sub" ∨ op = "mult") ∧
        rand_expr t fuel (m - 1) ⟨s.ipos + 1, s.fpos⟩ = some (a, s2) ∧
        rand_expr t fuel (m - 1) s2 = some (b, s3) ∧
        v = .vlist op [a, b]) := by
  refine ⟨drawInt_bounds t s m hm, ?_⟩
  rcases rand_expr_cases t fuel m s v s' hm hv with
    ⟨h0, hval⟩ | ⟨h0, h1, c, s2, hc, rfl, -⟩ |
    ⟨h0, h1, op, a, s2, b, s3, hop, ha, hbb, rfl, -⟩
  · have hleaf : isLeaf v = true := rand_val_isLeaf t fuel _ _ _ hval
    refine ⟨⟨fun _ => h0, fun _ => hleaf⟩, ?_, ?_⟩
    · rintro ⟨hd, hmp⟩
      rcases h0 with h0 | h0 <;> omega
    · rintro ⟨hd, hmp⟩
      rcases h0 with h0 | h0 <;> omega
  · refine ⟨⟨?_, ?_⟩, fun _ => ⟨c, s2, hc, rfl⟩, ?_⟩
    · intro hL
      simp [isLeaf] at hL
    · intro hcond
      exact absurd hcond h0
    · rintro ⟨hd, -⟩
      omega
  · refine ⟨⟨?_, ?_⟩, ?_, fun _ => ⟨op, a, s2, b, s3, hop, ha, hbb, rfl⟩⟩
    · intro hL
      simp [isLeaf] at hL
    · intro hcond
      exact absurd hcond h0
    · rintro ⟨hd, -⟩
      omega

theorem claim_C1_witness :
    0 ≤ (2 : Int) ∧
    rand_expr tape0 1 2 ⟨0, 0⟩ = some (.vfloat ⟨"0.5"⟩, ⟨2, 1⟩) ∧
    ((0 ≤ drawInt tape0 ⟨0, 0⟩ 2 ∧ drawInt tape0 ⟨0, 0⟩ 2 ≤ 2) ∧
      (isLeaf (.vfloat ⟨"0.5"⟩) = true ↔
        (drawInt tape0 ⟨0, 0⟩ 2 = 0 ∨ (2 : Int) ≤ 0)) ∧
      ((drawInt tape0 ⟨0, 0⟩ 2 = 1 ∧ (0 : Int) < 2) →
        ∃ c s2, rand_expr tape0 1 (2 - 1) ⟨1, 0⟩ = some (c, s2) ∧
          PyVal.vfloat ⟨"0.5"⟩ = .vlist "neg" [c]) ∧
      ((2 ≤ drawInt tape0 ⟨0, 0⟩ 2 ∧ (0 : Int) < 2) →
        ∃ op a s2 b s3, (op = "add" ∨ op = "sub" ∨ op = "mult") ∧
          rand_expr tape0 1 (2 - 1) ⟨1, 0⟩ = some (a, s2) ∧
          rand_expr tape0 1 (2 - 1) s2 = some (b, s3) ∧
          PyVal.vfloat ⟨"0.5"⟩ = .vlist op [a, b])) := by
  have hv : rand_expr tape0 1 2 ⟨0, 0⟩ = some (.vfloat ⟨"0.5"⟩, ⟨2, 1⟩) := by
    rw [rand_expr]
    rfl
  exact ⟨by norm_num, hv, claim_C1 tape0 1 2 ⟨0, 0⟩ ⟨2, 1⟩ _ (by norm_num) hv⟩

/-- Claim C2: on a float-good tape the generator is total: for every
nonnegative `d` it returns a tree, and the tree's depth is at most `d`.  The
float-good hypothesis is exactly the termination condition of the internal
reject-and-redraw loop, which Python's `random.random()` satisfies with
probability one. -/
theorem claim_C2 (t : Tape) (fuel : Nat) (m : Int) (s : RState)
    (hgood : FloatGood t fuel) (hm : 0 ≤ m) :
    ∃ v s', rand_expr t fuel m s = some (v, s') ∧ depth v ≤ m.toNat :=
  rand_expr_total t fuel hgood m.toNat m le_rfl hm s

theorem claim_C2_witness :
    FloatGood tape0 1 ∧ 0 ≤ (2 : Int) ∧
    ∃ v s', rand_expr tape0 1 2 ⟨0, 0⟩ = some (v, s') ∧
      depth v ≤ (2 : Int).toNat :=
  ⟨tape0_FloatGood, by norm_num,
    claim_C2 tape0 1 2 ⟨0, 0⟩ tape0_FloatGood (by norm_num)⟩

/-- Claim C3: the leaf value policy is a fair `randint(0, 1)` coin (uniformity
is the library contract on the entropy cell); on nonzero it returns a uniform
integer in `[-1000, 1000]`, otherwise a `random.random()` float redrawn until
its rendering has no `e` character; hence every integer leaf lies in
`[-1000, 1000]` and every float leaf's rendering contains no `e`. -/
theorem claim_C3 (t : Tape) (fuel : Nat) (s s' : RState) (v : PyVal)
    (hv : rand_val t fuel s = some (v, s')) :
    ((drawInt t s 1 ≠ 0 →
        ∃ n : Int, v = .vint n ∧ -1000 ≤ n ∧ n ≤ 1000) ∧
      (drawInt t s 1 = 0 →
        ∃ f : PyFloat, v = .vfloat f ∧ f.str.data.contains 'e' = false)) ∧
    ((∃ n : Int, v = .vint n ∧ -1000 ≤ n ∧ n ≤ 1000) ∨
      (∃ f : PyFloat, v = .vfloat f ∧ f.str.data.contains 'e' = false)) :=
  ⟨rand_val_coin t fuel s s' v hv, rand_val_policy t fuel s s' v hv⟩

theorem claim_C3_witness :
    rand_val tape0 1 ⟨0, 0⟩ = some (.vfloat ⟨"0.5"⟩, ⟨1, 1⟩) ∧
    (((drawInt tape0 ⟨0, 0⟩ 1 ≠ 0 →
        ∃ n : Int, PyVal.vfloat ⟨"0.5"⟩ = .vint n ∧ -1000 ≤ n ∧ n ≤ 1000) ∧
      (drawInt tape0 ⟨0, 0⟩ 1 = 0 →
        ∃ f : PyFloat, PyVal.vfloat ⟨"0.5"⟩ = .vfloat f ∧
          f.str.data.contains 'e' = false)) ∧
    ((∃ n : Int, PyVal.vfloat ⟨"0.5"⟩ = .vint n ∧ -1000 ≤ n ∧ n ≤ 1000) ∨
      (∃ f : PyFloat, PyVal.vfloat ⟨"0.5"⟩ = .vfloat f ∧
        f.str.data.contains 'e' = false))) :=
  ⟨rfl, claim_C3 tape0 1 ⟨0, 0⟩ ⟨1, 1⟩ _ rfl⟩

/-- Claim C4: a leaf prints as its value preceded by `indent` spaces in
newline mode or a single space otherwise, ending the line; a binary node
prints its operator with the same spacing rule and a newline, then each child
in order at `indent + 1` in newline mode; the `add`/`3`/`4` scenario renders
as exactly the three lines `add`, ` 3`, ` 4`. -/
theorem claim_C4 :
    (∀ (n : Int) (indent : Nat) (newline : Bool),
      print_expr (.vint n) indent newline =
        [⟨spacing indent newline ++ toString n, true⟩]) ∧
    (∀ (f : PyFloat) (indent : Nat) (newline : Bool),
      print_expr (.vfloat f) indent newline =
        [⟨spacing indent newline ++ f.str, true⟩]) ∧
    (∀ indent : Nat,
      spacing indent true = String.mk (List.replicate indent ' ') ∧
      spacing indent false = " ") ∧
    (∀ (op : String) (a b : PyVal) (indent : Nat) (newline : Bool),
      print_expr (.vlist op [a, b]) indent newline =
        ⟨spacing indent newline ++ op, true⟩ ::
          (print_expr a (indent + 1) true ++ print_expr b (indent + 1) true)) ∧
    render (print_expr (.vlist "add" [.vint 3, .vint 4]) 0 true) =
      "add\n 3\n 4\n" := by
  refine ⟨print_expr_vint, print_expr_vfloat, fun i => ⟨rfl, rfl⟩, ?_, ?_⟩
  · intro op a b indent newline
    rw [print_expr_other op [a, b] indent newline (by intro c h; simp at h)]
    simp only [List.map_cons, List.map_nil, List.flatten_cons, List.flatten_nil,
      List.append_nil]
  · rw [print_expr_other "add" [.vint 3, .vint 4] 0 true
      (by intro c h; simp at h)]
    simp only [List.map_cons, List.map_nil, print_expr_vint, List.flatten_cons,
      List.flatten_nil, List.append_nil]
    rfl

/-- Claim C5: a unary node prints its operator with the spacing rule and no
trailing newline, then its single child inline via `indent + 1` and newline
mode false; the `neg 5` scenario renders as the single line `neg 5`. -/
theorem claim_C5 :
    (∀ (op : String) (c : PyVal) (indent : Nat) (newline : Bool),
      print_expr (.vlist op [c]) indent newline =
        ⟨spacing indent newline ++ op, false⟩ ::
          print_expr c (indent + 1) false) ∧
    render (print_expr (.vlist "neg" [.vint 5]) 0 true) = "neg 5\n" := by
  refine ⟨print_expr_unary, ?_⟩
  rw [print_expr_unary, print_expr_vint]
  rfl

/-- Claim C6: for every well-shaped tree the number of line-ending print
calls equals the number of leaves plus the number of binary nodes; unary
nodes do not end a line. -/
theorem claim_C6 (v : PyVal) (indent : Nat) (newline : Bool)
    (hsh : isGenShape v = true) :
    lineCount (print_expr v indent newline) = leafCount v + binCount v :=
  lineCount_print_expr v indent newline hsh

theorem claim_C6_witness :
    isGenShape (.vlist "add" [.vint 3, .vint 4]) = true ∧
    lineCount (print_expr (.vlist "add" [.vint 3, .vint 4]) 0 true) =
      leafCount (.vlist "add" [.vint 3, .vint 4]) +
        binCount (.vlist "add" [.vint 3, .vint 4]) := by
  have hsh : isGenShape (.vlist "add" [.vint 3, .vint 4]) = true := by
    rw [isGenShape_vlist]
    refine ⟨Or.inr ⟨Or.inl rfl, rfl⟩, ?_⟩
    intro c hc
    rcases List.mem_pair.mp hc with rfl | rfl <;> simp [isGenShape]
  exact ⟨hsh, claim_C6 _ 0 true hsh⟩

/-- Claim C7: the top level prints the literal line `print` first and then
the generated tree at indent 0 in newline mode. -/
theorem claim_C7 (t : Tape) (fuel : Nat) (m : Int) (v : PyVal) (s' : RState)
    (hv : rand_expr t fuel m ⟨0, 0⟩ = some (v, s')) :
    program_output t fuel m = some (⟨"print", true⟩ :: print_expr v 0 true) ∧
    render (⟨"print", true⟩ :: print_expr v 0 true) =
      "print\n" ++ render (print_expr v 0 true) := by
  constructor
  · simp only [program_output, hv, Option.some_bind]
  · rfl

theorem claim_C7_witness :
    rand_expr tape0 1 0 ⟨0, 0⟩ = some (.vfloat ⟨"0.5"⟩, ⟨2, 1⟩) ∧
    (program_output tape0 1 0 =
        some (⟨"print", true⟩ :: print_expr (.vfloat ⟨"0.5"⟩) 0 true) ∧
      render (⟨"print", true⟩ :: print_expr (.vfloat ⟨"0.5"⟩) 0 true) =
        "print\n" ++ render (print_expr (.vfloat ⟨"0.5"⟩) 0 true)) := by
  have hv : rand_expr tape0 1 0 ⟨0, 0⟩ = some (.vfloat ⟨"0.5"⟩, ⟨2, 1⟩) := by
    rw [rand_expr]
    rfl
  exact ⟨hv, claim_C7 tape0 1 0 _ _ hv⟩

/-- Claim C8: `rand_expr 0` always returns a leaf, whatever the random source
holds. -/
theorem claim_C8 (t : Tape) (fuel : Nat) (s s' : RState) (v : PyVal)
    (hv : rand_expr t fuel 0 s = some (v, s')) : isLeaf v = true := by
  rw [rand_expr_zero] at hv
  exact rand_val_isLeaf t fuel _ _ _ hv

theorem claim_C8_witness :
    rand_expr tape0 1 0 ⟨0, 0⟩ = some (.vfloat ⟨"0.5"⟩, ⟨2, 1⟩) ∧
    isLeaf (.vfloat ⟨"0.5"⟩) = true := by
  have hv : rand_expr tape0 1 0 ⟨0, 0⟩ = some (.vfloat ⟨"0.5"⟩, ⟨2, 1⟩) := by
    rw [rand_expr]
    rfl
  exact ⟨hv, claim_C8 tape0 1 ⟨0, 0⟩ ⟨2, 1⟩ _ hv⟩

/-- Claim C9: every tree the generator returns is a number, a `["neg", c]`
unary list, or an `[op, a, b]` binary list with `op ∈ {"add", "sub", "mult"}`,
recursively; so the printer's number / length-2 / fallthrough dispatch is
exhaustive on generated values and classifies each node as intended. -/
theorem claim_C9 (t : Tape) (fuel : Nat) (m : Int) (s s' : RState) (v : PyVal)
    (hv : rand_expr t fuel m s = some (v, s')) :
    isGenShape v = true ∧
    ((∃ n : Int, v = .vint n) ∨ (∃ f : PyFloat, v = .vfloat f) ∨
      (∃ c, v = .vlist "neg" [c] ∧ isGenShape c = true) ∨
      (∃ op a b, (op = "add" ∨ op = "sub" ∨ op = "mult") ∧
        v = .vlist op [a, b] ∧ isGenShape a = true ∧ isGenShape b = true)) := by
  have hs := rand_expr_shape t fuel m.toNat m le_rfl s s' v hv
  exact ⟨hs, shape_trichotomy v hs⟩

theorem claim_C9_witness :
    rand_expr tape0 1 2 ⟨0, 0⟩ = some (.vfloat ⟨"0.5"⟩, ⟨2, 1⟩) ∧
    (isGenShape (.vfloat ⟨"0.5"⟩) = true ∧
      ((∃ n : Int, PyVal.vfloat ⟨"0.5"⟩ = .vint n) ∨
        (∃ f : PyFloat, PyVal.vfloat ⟨"0.5"⟩ = .vfloat f) ∨
        (∃ c, PyVal.vfloat ⟨"0.5"⟩ = .vlist "neg" [c] ∧ isGenShape c = true) ∨
        (∃ op a b, (op = "add" ∨ op = "sub" ∨ op = "mult") ∧
          PyVal.vfloat ⟨"0.5"⟩ = .vlist op [a, b] ∧
          isGenShape a = true ∧ isGenShape b = true))) := by
  have hv : rand_expr tape0 1 2 ⟨0, 0⟩ = some (.vfloat ⟨"0.5"⟩, ⟨2, 1⟩) := by
    rw [rand_expr]
    rfl
  exact ⟨hv, claim_C9 tape0 1 2 ⟨0, 0⟩ ⟨2, 1⟩ _ hv⟩

/-- Claim C10: for negative `max_rec` the call fails — `randint(0, max_rec)`
is drawn over an empty range before the `max_rec <= 0` test can return a
leaf, and raises. -/
theorem claim_C10 (t : Tape) (fuel : Nat) (m : Int) (s : RState)
    (hm : m < 0) : rand_expr t fuel m s = none :=
  rand_expr_none_of_neg t fuel m s hm

theorem claim_C10_witness :
    (-1 : Int) < 0 ∧ rand_expr tape0 1 (-1) ⟨0, 0⟩ = none :=
  ⟨by norm_num, claim_C10 tape0 1 (-1) ⟨0, 0⟩ (by norm_num)⟩

end GenExpr
